import Mathlib

/-!
Verification of the memory-addressing interface (`models/ntm/interface.py`)
and the episodic training control loop (`workers/episode_trainer.py`) of the
mi-prometheus repository.

Real-valued tensor code is embedded over `ℝ`, one batch element at a time
(all source operations are elementwise across the batch dimension), with a
tensor of shape `[heads, slots]` rendered as `Fin H → Fin N → ℝ`.
The training control loop is embedded over `ℚ` as an explicit state machine.
-/

namespace MiPrometheus

/-! ### Activation functions (torch.nn.functional) -/

/-- Logistic sigmoid, `F.sigmoid`. -/
noncomputable def sigmoid (x : ℝ) : ℝ := 1 / (1 + Real.exp (-x))

/-- Softplus, `F.softplus`. -/
noncomputable def softplus (x : ℝ) : ℝ := Real.log (1 + Real.exp x)

/-- Softmax along a `Fin n` axis, `F.softmax(·, dim=-1)`. -/
noncomputable def softmax {n : ℕ} (x : Fin n → ℝ) : Fin n → ℝ :=
  fun i => Real.exp (x i) / ∑ j, Real.exp (x j)

theorem sigmoid_pos (x : ℝ) : 0 < sigmoid x := by
  unfold sigmoid
  have h := Real.exp_pos (-x)
  positivity

theorem sigmoid_lt_one (x : ℝ) : sigmoid x < 1 := by
  unfold sigmoid
  have h := Real.exp_pos (-x)
  rw [div_lt_one (by linarith)]
  linarith

theorem softplus_nonneg (x : ℝ) : 0 ≤ softplus x := by
  unfold softplus
  have h := Real.exp_pos x
  exact Real.log_nonneg (by linarith)

theorem sum_exp_pos {n : ℕ} (x : Fin n → ℝ) (i : Fin n) :
    0 < ∑ j, Real.exp (x j) :=
  Finset.sum_pos (fun j _ => Real.exp_pos (x j)) ⟨i, Finset.mem_univ i⟩

theorem softmax_pos {n : ℕ} (x : Fin n → ℝ) (i : Fin n) : 0 < softmax x i :=
  div_pos (Real.exp_pos (x i)) (sum_exp_pos x i)

theorem softmax_sum_eq_one {n : ℕ} (x : Fin n → ℝ) (i : Fin n) :
    ∑ j, softmax x j = 1 := by
  unfold softmax
  rw [← Finset.sum_div]
  exact div_self (ne_of_gt (sum_exp_pos x i))

/-! ### Interface configuration (`Interface.__init__`) -/

/-- Construction parameters of `Interface`: number of heads, content-addressing
flag, number of shifts, slots-per-address width `M`. -/
structure InterfaceCfg where
  num_heads : ℕ
  is_cam : Bool
  num_shift : ℕ
  M : ℕ

namespace InterfaceCfg

/-- Widths of the named sub-parameters, in the source's insertion order:
`{'s': num_shift, 'jd': num_heads, 'j': 3*num_heads, 'γ': 1, 'erase': M,
'add': M}`, extended with `{'k': M, 'β': 1, 'g': 1}` when content addressing
is enabled. -/
def paramLengths (c : InterfaceCfg) : List ℕ :=
  [c.num_shift, c.num_heads, 3 * c.num_heads, 1, c.M, c.M] ++
    (if c.is_cam then [c.M, 1, 1] else [])

/-- Cumulative sums of the widths with a leading zero
(`np.cumsum(np.insert(lengths, 0, 0))`). -/
def cum_lengths (c : InterfaceCfg) : List ℕ :=
  List.scanl (· + ·) 0 c.paramLengths

/-- Size of the data read by all heads (`Interface.read_size`). -/
def read_size (c : InterfaceCfg) : ℕ := c.num_heads * c.M

/-- Total number of parameters output by the controller
(`Interface.update_size = num_heads * cum_lengths[-1]`). -/
def update_size (c : InterfaceCfg) : ℕ :=
  c.num_heads * (c.cum_lengths.getLastD 0)

/-- Per-head parameter block width `cum_lengths[-1]`. -/
def headSpan (c : InterfaceCfg) : ℕ := c.cum_lengths.getLastD 0

/-- Offset of the `jd` slice inside one head's parameter block. -/
def oJd (c : InterfaceCfg) : ℕ := c.num_shift

/-- Offset of the `j` slice inside one head's parameter block. -/
def oJ (c : InterfaceCfg) : ℕ := c.oJd + c.num_heads

/-- Offset of the sharpening exponent inside one head's parameter block. -/
def oGamma (c : InterfaceCfg) : ℕ := c.oJ + 3 * c.num_heads

/-- Offset of the erase-gate slice inside one head's parameter block. -/
def oErase (c : InterfaceCfg) : ℕ := c.oGamma + 1

/-- Offset of the add-vector slice inside one head's parameter block. -/
def oAdd (c : InterfaceCfg) : ℕ := c.oErase + c.M

/-- Offset of the content key slice (content addressing only). -/
def oK (c : InterfaceCfg) : ℕ := c.oAdd + c.M

/-- Offset of the key strength (content addressing only). -/
def oBeta (c : InterfaceCfg) : ℕ := c.oK + c.M

/-- Offset of the interpolation gate (content addressing only). -/
def oG (c : InterfaceCfg) : ℕ := c.oBeta + 1

end InterfaceCfg

/-! ### Memory Bank (`models/ntm/memory.py`)

Modelled from the spec: `memory.py` is not among the provided sources; the
operations below follow spec §4.1 word for word.  A memory bank for one batch
item is a `slots × cell-width` matrix `Fin N → Fin M → ℝ`.  The erase scaling
factor `(1 - weights ⊗ erase_gate)` is applied as one factor per head
(multiplicatively combined), and the add contribution `weights ⊗ add_vector`
is summed over heads — the standard multi-head NTM write. -/

/-- Modelled from the spec: `attention_read(weights)` — for each head, the
weighted sum over memory slots with the attention weights as coefficients; no
side effect on the bank's content. -/
noncomputable def attention_read {H N M : ℕ} (wt : Fin H → Fin N → ℝ)
    (mem : Fin N → Fin M → ℝ) : (Fin H → Fin M → ℝ) × (Fin N → Fin M → ℝ) :=
  (fun h j => ∑ i, wt h i * mem i j, mem)

/-- Modelled from the spec: `erase_weighted(erase_gate, weights)` — for each
slot, scales existing content by `(1 - weights ⊗ erase_gate)` elementwise. -/
noncomputable def erase_weighted {H N M : ℕ} (erase : Fin H → Fin M → ℝ)
    (wt : Fin H → Fin N → ℝ) (mem : Fin N → Fin M → ℝ) : Fin N → Fin M → ℝ :=
  fun i j => mem i j * ∏ h, (1 - wt h i * erase h j)

/-- Modelled from the spec: `add_weighted(add_vector, weights)` — adds
`weights ⊗ add_vector` (outer product) to the content. -/
noncomputable def add_weighted {H N M : ℕ} (add : Fin H → Fin M → ℝ)
    (wt : Fin H → Fin N → ℝ) (mem : Fin N → Fin M → ℝ) : Fin N → Fin M → ℝ :=
  fun i j => mem i j + ∑ h, wt h i * add h j

/-- Modelled from the spec: `content_similarity(key)` — cosine similarity
between the key and every memory slot, per head. -/
noncomputable def content_similarity {H N M : ℕ} (key : Fin H → Fin M → ℝ)
    (mem : Fin N → Fin M → ℝ) : Fin H → Fin N → ℝ :=
  fun h i => (∑ j, key h j * mem i j) /
    (Real.sqrt (∑ j, key h j ^ 2) * Real.sqrt (∑ j, mem i j ^ 2))

/-! ### Tensor utilities (`models/ntm/tensor_utils.py`) -/

/-- Modelled from the spec: `circular_conv` — circular convolution of a
per-head weight row with the shift distribution, rotating attention across
neighboring slots (spec §4.2 step 8). -/
noncomputable def circular_conv {N S : ℕ} [NeZero N] (v : Fin N → ℝ)
    (s : Fin S → ℝ) : Fin N → ℝ :=
  fun i => ∑ k : Fin S, s k * v (i + (k.1 : Fin N))

/-- Modelled from the spec: `normalize` — renormalization of a row to a
probability distribution by dividing by its sum (spec §4.2 step 9). -/
noncomputable def normalize {N : ℕ} (v : Fin N → ℝ) : Fin N → ℝ :=
  fun i => v i / ∑ j, v j

/-! ### `Interface.read` -/

/-- Index pair of one coordinate of the flattened read vector:
`read_data.view(*sz, read_size)` lays a `[num_heads, M]` block out row-major. -/
def flatIdx (H M : ℕ) (t : Fin (H * M)) : Fin H × Fin M :=
  have hM : 0 < M := Nat.pos_of_ne_zero (fun h => absurd t.2 (by simp [h]))
  (⟨t.1 / M, Nat.div_lt_of_lt_mul (by rw [Nat.mul_comm M H]; exact t.2)⟩,
   ⟨t.1 % M, Nat.mod_lt _ hM⟩)

/-- Embedding of `Interface.read`: wraps the memory tensor in a `Memory`,
reads through `attention_read`, and flattens the `[num_heads, M]` read data
into one vector of length `read_size`.  The second component is the memory
content after the call. -/
noncomputable def Interface.read (c : InterfaceCfg) (N : ℕ)
    (wt : Fin c.num_heads → Fin N → ℝ) (mem : Fin N → Fin c.M → ℝ) :
    (Fin c.read_size → ℝ) × (Fin N → Fin c.M → ℝ) :=
  let r := attention_read wt mem
  (fun t => r.1 (flatIdx c.num_heads c.M t).1 (flatIdx c.num_heads c.M t).2, r.2)

/-! ### `Interface.update`, stage by stage

`update_data` is the flat controller parameter vector, embedded as a
`List ℝ`; the source reshapes it to `[num_heads, cum_lengths[-1]]` and slices
each head's block at the cumulative offsets.  `rawAt d k` is coordinate `k`
of the flat vector. -/

/-- Coordinate `k` of the flat parameter vector. -/
def rawAt (d : List ℝ) (k : ℕ) : ℝ := d.getD k 0

/-- Start of head `h`'s parameter block after
`update_data.view(num_heads, cum_lengths[-1])`. -/
def headBase (c : InterfaceCfg) (h : Fin c.num_heads) : ℕ := h.1 * c.headSpan

/-- Shift distribution `s = F.softmax(F.softplus(s), dim=-1)` of head `h`. -/
noncomputable def sAct (c : InterfaceCfg) (d : List ℝ) (h : Fin c.num_heads) :
    Fin c.num_shift → ℝ :=
  softmax (fun t => softplus (rawAt d (headBase c h + t.1)))

/-- Dynamic-jump gate `jd = F.sigmoid(jd)` of head `h`.  The source's `jd`
slice has width `num_heads` per head and enters `(1 - jd) * wt + jd * wt_d`
by broadcasting against `[num_heads, N]`, which is well-formed exactly when
the slice is a scalar (`num_heads = 1`); we take the slice's first scalar. -/
noncomputable def jdGate (c : InterfaceCfg) (d : List ℝ) (h : Fin c.num_heads) : ℝ :=
  sigmoid (rawAt d (headBase c h + c.oJd))

/-- Jump-mix coefficients `j = F.softmax(j, dim=-1)` reshaped by
`j.view(-1, num_heads, 3)`: three logits per head (the reshape is faithful
for `num_heads = 1`, the only shape the broadcasts in `update` support). -/
noncomputable def jMixCoeffs (c : InterfaceCfg) (d : List ℝ) (h : Fin c.num_heads) :
    Fin 3 → ℝ :=
  softmax (fun t => rawAt d (headBase c h + c.oJ + t.1))

/-- Sharpening exponent `γ = 1 + F.softplus(γ)` of head `h`. -/
noncomputable def gammaExp (c : InterfaceCfg) (d : List ℝ) (h : Fin c.num_heads) : ℝ :=
  1 + softplus (rawAt d (headBase c h + c.oGamma))

/-- Erase gate `erase = F.sigmoid(erase)` of head `h`. -/
noncomputable def eraseGate (c : InterfaceCfg) (d : List ℝ) (h : Fin c.num_heads)
    (t : Fin c.M) : ℝ :=
  sigmoid (rawAt d (headBase c h + c.oErase + t.1))

/-- Add vector of head `h` — the source applies no activation to `add`. -/
def addVec (c : InterfaceCfg) (d : List ℝ) (h : Fin c.num_heads) (t : Fin c.M) : ℝ :=
  rawAt d (headBase c h + c.oAdd + t.1)

/-- Content key `k = F.tanh(k)` of head `h` (content addressing only). -/
noncomputable def keyVec (c : InterfaceCfg) (d : List ℝ) (h : Fin c.num_heads)
    (t : Fin c.M) : ℝ :=
  Real.tanh (rawAt d (headBase c h + c.oK + t.1))

/-- Key strength `β = F.softplus(β)` of head `h` (content addressing only). -/
noncomputable def keyStrength (c : InterfaceCfg) (d : List ℝ) (h : Fin c.num_heads) : ℝ :=
  softplus (rawAt d (headBase c h + c.oBeta))

/-- Interpolation gate `g = F.sigmoid(g)` of head `h` (content addressing only). -/
noncomputable def camGate (c : InterfaceCfg) (d : List ℝ) (h : Fin c.num_heads) : ℝ :=
  sigmoid (rawAt d (headBase c h + c.oG))

/-- Memory content after `memory.erase_weighted(erase, wt)` followed by
`memory.add_weighted(add, wt)` — erase strictly precedes add. -/
noncomputable def memAfterWrite (c : InterfaceCfg) (N : ℕ) (d : List ℝ)
    (wt : Fin c.num_heads → Fin N → ℝ) (mem : Fin N → Fin c.M → ℝ) :
    Fin N → Fin c.M → ℝ :=
  add_weighted (addVec c d) wt (erase_weighted (eraseGate c d) wt mem)

/-- Fixed attention to address 0: `wt_address_0 = zeros_like(wt)` with
`wt_address_0[:, 0:num_heads, 0] = 1`. -/
def wtAddress0 (H N : ℕ) : Fin H → Fin N → ℝ :=
  fun _ i => if i.1 = 0 then 1 else 0

/-- Updated dynamic weight `wt_dynamic = (1 - jd) * wt + jd * wt_dynamic`. -/
noncomputable def newDynamic (c : InterfaceCfg) (N : ℕ) (d : List ℝ)
    (wt wtd : Fin c.num_heads → Fin N → ℝ) : Fin c.num_heads → Fin N → ℝ :=
  fun h i => (1 - jdGate c d h) * wt h i + jdGate c d h * wtd h i

/-- Three-way jump mix
`wt = j[...,0] * wt_dynamic + j[...,1] * wt + j[...,2] * wt_address_0`. -/
noncomputable def jumpMix {H N : ℕ} (j : Fin H → Fin 3 → ℝ)
    (wtdyn wtst home : Fin H → Fin N → ℝ) : Fin H → Fin N → ℝ :=
  fun h i => j h 0 * wtdyn h i + j h 1 * wtst h i + j h 2 * home h i

/-- Static weight after the jump mix. -/
noncomputable def wtAfterJump (c : InterfaceCfg) (N : ℕ) (d : List ℝ)
    (wt wtd : Fin c.num_heads → Fin N → ℝ) : Fin c.num_heads → Fin N → ℝ :=
  jumpMix (jMixCoeffs c d) (newDynamic c N d wt wtd) wt (wtAddress0 c.num_heads N)

/-- Static weight after the optional content-addressing interpolation
`wt = g * wt_β + (1 - g) * wt`, where `wt_β = softmax(β * wt_k)` and `wt_k`
is the content similarity against the just-written memory. -/
noncomputable def wtAfterCam (c : InterfaceCfg) (N : ℕ) (d : List ℝ)
    (wt wtd : Fin c.num_heads → Fin N → ℝ) (mem : Fin N → Fin c.M → ℝ) :
    Fin c.num_heads → Fin N → ℝ :=
  if c.is_cam then
    fun h i =>
      camGate c d h *
        softmax (fun i' =>
          keyStrength c d h *
            content_similarity (keyVec c d) (memAfterWrite c N d wt mem) h i') i +
      (1 - camGate c d h) * wtAfterJump c N d wt wtd h i
  else wtAfterJump c N d wt wtd

/-- Static weight after `wt_s = circular_conv(wt, s)`. -/
noncomputable def wtAfterShift (c : InterfaceCfg) (N : ℕ) [NeZero N] (d : List ℝ)
    (wt wtd : Fin c.num_heads → Fin N → ℝ) (mem : Fin N → Fin c.M → ℝ) :
    Fin c.num_heads → Fin N → ℝ :=
  fun h => circular_conv (wtAfterCam c N d wt wtd mem h) (sAct c d h)

/-- The epsilon added before exponentiation, `eps = 1e-12`. -/
noncomputable def eps : ℝ := 1e-12

/-- Sharpened weight `wt = (wt_s + eps) ** γ` (real power). -/
noncomputable def wtSharp (c : InterfaceCfg) (N : ℕ) [NeZero N] (d : List ℝ)
    (wt wtd : Fin c.num_heads → Fin N → ℝ) (mem : Fin N → Fin c.M → ℝ) :
    Fin c.num_heads → Fin N → ℝ :=
  fun h i => (wtAfterShift c N d wt wtd mem h i + eps) ^ gammaExp c d h

/-- Result triple of `Interface.update`: new static weights, new dynamic
weights, new memory content. -/
structure UpdateResult (H N M : ℕ) where
  wt : Fin H → Fin N → ℝ
  wt_dynamic : Fin H → Fin N → ℝ
  mem : Fin N → Fin M → ℝ

/-- Body of `Interface.update` past the size assertion: writes memory
(erase, then add), updates the dynamic weights, jump-mixes, optionally
content-addresses, shifts, sharpens and normalizes. -/
noncomputable def updateCore (c : InterfaceCfg) (N : ℕ) [NeZero N] (d : List ℝ)
    (wt wtd : Fin c.num_heads → Fin N → ℝ) (mem : Fin N → Fin c.M → ℝ) :
    UpdateResult c.num_heads N c.M :=
  { wt := fun h => normalize (wtSharp c N d wt wtd mem h)
    wt_dynamic := newDynamic c N d wt wtd
    mem := memAfterWrite c N d wt mem }

/-- Embedding of `Interface.update`: the leading
`assert update_data.size()[-1] == self.update_size` is rendered as a guard —
the update proceeds exactly when the flat parameter vector has width
`update_size`, and fails (`none`) otherwise. -/
noncomputable def Interface.update (c : InterfaceCfg) (N : ℕ) [NeZero N] (d : List ℝ)
    (wt wtd : Fin c.num_heads → Fin N → ℝ) (mem : Fin N → Fin c.M → ℝ) :
    Option (UpdateResult c.num_heads N c.M) :=
  if d.length = c.update_size then some (updateCore c N d wt wtd mem) else none

/-! ### Episodic trainer (`workers/episode_trainer.py`, `forward`)

The control loop is embedded as an explicit state machine over `ℚ`-valued
losses.  External collaborators (model, problem, validation routine,
visualization) are represented by an environment of per-episode responses;
checkpoint saves and validations are counted in the state. -/

/-- Which terminal condition ended the loop (spec §4.3 state machine). -/
inductive TerminalState where
  | USER_STOPPED
  | CONVERGED
  | EXHAUSTED
deriving DecidableEq

/-- Configuration the loop reads from `self.params` and `flags`. -/
structure TrainerParams where
  max_episodes : ℕ
  validation_interval : ℕ
  loss_stop : ℚ
  must_finish_curriculum : Bool
  gradient_clipping : Option ℚ
  visualize : Option ℕ

/-- Per-episode responses of the external collaborators: `model.plot`'s
quit signal, `validation`'s loss and user-stop signal, and the problem's
curriculum-completion flag. -/
structure TrainerEnv where
  plotQuit : ℕ → Bool
  validLoss : ℕ → ℚ
  validQuit : ℕ → Bool
  curricDone : ℕ → Bool

/-- Mutable loop state: episode counter, latest validation loss (unset until
the first validation), and counters of checkpoint saves and validations. -/
structure TrainerState where
  episode : ℕ
  latest_valid_loss : Option ℚ
  save_count : ℕ
  valid_count : ℕ
deriving DecidableEq

/-- State at loop entry: `episode = 0`, no validation yet. -/
def initTrainerState : TrainerState := ⟨0, none, 0, 0⟩

/-- Clamp of one gradient component to `[-v, v]`
(`torch.nn.utils.clip_grad_value_`). -/
def clampGrad (v g : ℚ) : ℚ := min v (max (-v) g)

/-- The loop's clipping step: `try: val = params['training']['gradient_clipping'];
clip_grad_value_(model.parameters(), val)  except KeyError: pass` — a missing
threshold is `none` and leaves the gradients untouched. -/
def applyGradientClipping (cfg : Option ℚ) (grads : List ℚ) : List ℚ :=
  match cfg with
  | none => grads
  | some v => grads.map (clampGrad v)

/-- Training-time visualization gate:
`flags.visualize is not None and flags.visualize <= 1`. -/
def trainVisualize (p : TrainerParams) : Bool :=
  match p.visualize with
  | some v => decide (v ≤ 1)
  | none => false

/-- Convergence comparison `validation_loss < loss_stop` on the latest
validation loss; before any validation there is nothing to compare. -/
def lossBelow : Option ℚ → ℚ → Bool
  | none, _ => false
  | some l, t => decide (l < t)

/-- Outcome of one episode: continue with the next state, or break the loop
in a terminal state. -/
inductive StepOutcome where
  | next (st : TrainerState)
  | stop (t : TerminalState) (st : TrainerState)
deriving DecidableEq

/-- One episode of `EpisodeTrainer.forward`.  Steps 1–4 (zero gradients,
forward, backward, `applyGradientClipping`, optimizer step, statistics
export) touch only the model and statistics collaborators; the control flow
is: (5) training visualization — user pressing Quit breaks; (6) every
`validation_interval` episodes run validation and save the model;
(7) curriculum update, then the terminal conditions in source order:
user stop, convergence, episode limit (with one more validation and save
at the limit); otherwise increment the episode counter. -/
def episodeStep (p : TrainerParams) (env : TrainerEnv) (st : TrainerState) :
    StepOutcome :=
  if trainVisualize p && env.plotQuit st.episode then
    .stop .USER_STOPPED st
  else
    let doValid : Bool := st.episode % p.validation_interval == 0
    let st1 : TrainerState :=
      if doValid then
        { st with latest_valid_loss := some (env.validLoss st.episode),
                  valid_count := st.valid_count + 1,
                  save_count := st.save_count + 1 }
      else st
    let user_pressed_stop : Bool := doValid && env.validQuit st.episode
    let curric_done : Bool := env.curricDone st.episode
    if user_pressed_stop then
      .stop .USER_STOPPED st1
    else if (curric_done || !p.must_finish_curriculum) &&
        lossBelow st1.latest_valid_loss p.loss_stop then
      .stop .CONVERGED st1
    else if st.episode == p.max_episodes then
      .stop .EXHAUSTED
        { st1 with valid_count := st1.valid_count + 1,
                   save_count := st1.save_count + 1 }
    else
      .next { st1 with episode := st.episode + 1 }

/-- The `for data_dict in self.dataloader` loop over the cycled (hence
inexhaustible) data source, with enough fuel to reach any terminal
condition. -/
def runLoop (p : TrainerParams) (env : TrainerEnv) :
    ℕ → TrainerState → Option TerminalState × TrainerState
  | 0, st => (none, st)
  | fuel + 1, st =>
    match episodeStep p env st with
    | .next st' => runLoop p env fuel st'
    | .stop t st' => (some t, st')

/-- The whole of `EpisodeTrainer.forward`: the episode loop followed by the
unconditional post-loop full-validation-set pass (`validate_over_set`) and
model save. -/
def trainerRun (p : TrainerParams) (env : TrainerEnv) :
    Option TerminalState × TrainerState :=
  let r := runLoop p env (p.max_episodes + 1) initTrainerState
  (r.1, { r.2 with valid_count := r.2.valid_count + 1,
                   save_count := r.2.save_count + 1 })

/-! ### Helper lemmas about the update pipeline -/

theorem eps_pos : 0 < eps := by unfold eps; norm_num

theorem wtAddress0_nonneg (H N : ℕ) (h : Fin H) (i : Fin N) :
    0 ≤ wtAddress0 H N h i := by
  unfold wtAddress0
  split <;> norm_num

theorem newDynamic_nonneg (c : InterfaceCfg) (N : ℕ) (d : List ℝ)
    (wt wtd : Fin c.num_heads → Fin N → ℝ)
    (hw : ∀ h i, 0 ≤ wt h i) (hd : ∀ h i, 0 ≤ wtd h i) :
    ∀ h i, 0 ≤ newDynamic c N d wt wtd h i := by
  intro h i
  unfold newDynamic
  have h1 := sigmoid_pos (rawAt d (headBase c h + c.oJd))
  have h2 := sigmoid_lt_one (rawAt d (headBase c h + c.oJd))
  unfold jdGate
  have h3 := hw h i
  have h4 := hd h i
  nlinarith

theorem wtAfterJump_nonneg (c : InterfaceCfg) (N : ℕ) (d : List ℝ)
    (wt wtd : Fin c.num_heads → Fin N → ℝ)
    (hw : ∀ h i, 0 ≤ wt h i) (hd : ∀ h i, 0 ≤ wtd h i) :
    ∀ h i, 0 ≤ wtAfterJump c N d wt wtd h i := by
  intro h i
  unfold wtAfterJump jumpMix
  have hdyn := newDynamic_nonneg c N d wt wtd hw hd h i
  have hhome := wtAddress0_nonneg c.num_heads N h i
  have hj0 := le_of_lt (softmax_pos (fun t : Fin 3 => rawAt d (headBase c h + c.oJ + t.1)) 0)
  have hj1 := le_of_lt (softmax_pos (fun t : Fin 3 => rawAt d (headBase c h + c.oJ + t.1)) 1)
  have hj2 := le_of_lt (softmax_pos (fun t : Fin 3 => rawAt d (headBase c h + c.oJ + t.1)) 2)
  unfold jMixCoeffs
  have hst := hw h i
  positivity

theorem wtAfterCam_nonneg (c : InterfaceCfg) (N : ℕ) (d : List ℝ)
    (wt wtd : Fin c.num_heads → Fin N → ℝ) (mem : Fin N → Fin c.M → ℝ)
    (hw : ∀ h i, 0 ≤ wt h i) (hd : ∀ h i, 0 ≤ wtd h i) :
    ∀ h i, 0 ≤ wtAfterCam c N d wt wtd mem h i := by
  intro h i
  unfold wtAfterCam
  split
  · have hg := sigmoid_pos (rawAt d (headBase c h + c.oG))
    have hg1 := sigmoid_lt_one (rawAt d (headBase c h + c.oG))
    have hβ := le_of_lt (softmax_pos (fun i' =>
      keyStrength c d h *
        content_similarity (keyVec c d) (memAfterWrite c N d wt mem) h i') i)
    have hj := wtAfterJump_nonneg c N d wt wtd hw hd h i
    unfold camGate
    dsimp only
    exact add_nonneg (mul_nonneg (le_of_lt hg) hβ)
      (mul_nonneg (by linarith) hj)
  · exact wtAfterJump_nonneg c N d wt wtd hw hd h i

theorem wtAfterShift_nonneg (c : InterfaceCfg) (N : ℕ) [NeZero N] (d : List ℝ)
    (wt wtd : Fin c.num_heads → Fin N → ℝ) (mem : Fin N → Fin c.M → ℝ)
    (hw : ∀ h i, 0 ≤ wt h i) (hd : ∀ h i, 0 ≤ wtd h i) :
    ∀ h i, 0 ≤ wtAfterShift c N d wt wtd mem h i := by
  intro h i
  unfold wtAfterShift circular_conv
  refine Finset.sum_nonneg fun k _ => mul_nonneg ?_ ?_
  · exact le_of_lt (softmax_pos (fun t => softplus (rawAt d (headBase c h + t.1))) k)
  · exact wtAfterCam_nonneg c N d wt wtd mem hw hd h _

theorem wtSharp_pos (c : InterfaceCfg) (N : ℕ) [NeZero N] (d : List ℝ)
    (wt wtd : Fin c.num_heads → Fin N → ℝ) (mem : Fin N → Fin c.M → ℝ)
    (hw : ∀ h i, 0 ≤ wt h i) (hd : ∀ h i, 0 ≤ wtd h i) :
    ∀ h i, 0 < wtSharp c N d wt wtd mem h i := by
  intro h i
  unfold wtSharp
  have hb : 0 < wtAfterShift c N d wt wtd mem h i + eps :=
    add_pos_of_nonneg_of_pos (wtAfterShift_nonneg c N d wt wtd mem hw hd h i) eps_pos
  exact Real.rpow_pos_of_pos hb _

theorem sum_wtSharp_pos (c : InterfaceCfg) (N : ℕ) [NeZero N] (d : List ℝ)
    (wt wtd : Fin c.num_heads → Fin N → ℝ) (mem : Fin N → Fin c.M → ℝ)
    (hw : ∀ h i, 0 ≤ wt h i) (hd : ∀ h i, 0 ≤ wtd h i) (h : Fin c.num_heads) :
    0 < ∑ i, wtSharp c N d wt wtd mem h i := by
  have : Nonempty (Fin N) := ⟨⟨0, Nat.pos_of_ne_zero (NeZero.ne N)⟩⟩
  exact Finset.sum_pos (fun i _ => wtSharp_pos c N d wt wtd mem hw hd h i)
    Finset.univ_nonempty

theorem update_eq_some_iff (c : InterfaceCfg) (N : ℕ) [NeZero N] (d : List ℝ)
    (wt wtd : Fin c.num_heads → Fin N → ℝ) (mem : Fin N → Fin c.M → ℝ)
    (r : UpdateResult c.num_heads N c.M) :
    Interface.update c N d wt wtd mem = some r ↔
      d.length = c.update_size ∧ r = updateCore c N d wt wtd mem := by
  unfold Interface.update
  split_ifs with hg
  · simp [hg, eq_comm]
  · simp [hg]

theorem scanl_add_getLastD (l : List ℕ) : ∀ a dflt : ℕ,
    (List.scanl (· + ·) a l).getLastD dflt = a + l.sum := by
  induction l with
  | nil => intro a dflt; simp [List.scanl]
  | cons x l ih =>
    intro a dflt
    simp only [List.scanl, List.getLastD_cons, List.sum_cons, ih]
    omega

/-! ### The claims -/

/-- C2: for every constructed `Interface`, `update_size` equals `num_heads`
times the sum of the configured sub-parameter widths (`s`, `jd`, `j`, `γ`,
`erase`, `add`, plus `k`, `β`, `g` when content addressing is enabled).  The
configuration record is immutable in this embedding, so the value is fixed at
construction. -/
theorem update_size_eq_heads_mul_width_sum (c : InterfaceCfg) :
    c.update_size = c.num_heads * c.paramLengths.sum ∧
    c.paramLengths.sum =
      c.num_shift + c.num_heads + 3 * c.num_heads + 1 + c.M + c.M +
        (if c.is_cam then c.M + 1 + 1 else 0) := by
  constructor
  · unfold InterfaceCfg.update_size InterfaceCfg.cum_lengths
    rw [scanl_add_getLastD, Nat.zero_add]
  · unfold InterfaceCfg.paramLengths
    cases hc : c.is_cam <;> simp [hc] <;> omega

/-- C7: `Interface.update` proceeds past its size assertion exactly when the
flat controller parameter vector has width `update_size`; on any mismatch it
fails immediately instead of truncating or padding. -/
theorem update_succeeds_iff_size_matches (c : InterfaceCfg) (N : ℕ) [NeZero N]
    (d : List ℝ) (wt wtd : Fin c.num_heads → Fin N → ℝ)
    (mem : Fin N → Fin c.M → ℝ) :
    (Interface.update c N d wt wtd mem).isSome ↔ d.length = c.update_size := by
  unfold Interface.update
  split_ifs with hg <;> simp [hg]

/-- Witness for C7 at a concrete one-head configuration (`update_size = 8`). -/
theorem update_succeeds_iff_size_matches_witness :
    (Interface.update ⟨1, false, 1, 1⟩ 1 (List.replicate 8 0)
      (fun _ _ => 0) (fun _ _ => 0) (fun _ _ => 0)).isSome :=
  (update_succeeds_iff_size_matches ⟨1, false, 1, 1⟩ 1 (List.replicate 8 0)
    (fun _ _ => 0) (fun _ _ => 0) (fun _ _ => 0)).mpr (by decide)

/-- C9: `Interface.read` is pure — reading twice with the same weights yields
identical output, and the memory content is unchanged by a read. -/
theorem read_is_pure (c : InterfaceCfg) (N : ℕ)
    (wt : Fin c.num_heads → Fin N → ℝ) (mem : Fin N → Fin c.M → ℝ) :
    (Interface.read c N wt (Interface.read c N wt mem).2).1
        = (Interface.read c N wt mem).1 ∧
      (Interface.read c N wt mem).2 = mem :=
  ⟨rfl, rfl⟩

/-- C1: whenever `Interface.update` accepts its arguments (parameter vector
of width `update_size`, static and dynamic weights that are valid per-head
probability distributions), after the sharpening-and-normalization step every
head's row of the returned static weights sums to 1 — in exact real
arithmetic the sum is exactly 1, hence within the source's `1e-6` absolute
tolerance. -/
theorem update_row_sum_one (c : InterfaceCfg) (N : ℕ) [NeZero N] (d : List ℝ)
    (wt wtd : Fin c.num_heads → Fin N → ℝ) (mem : Fin N → Fin c.M → ℝ)
    (r : UpdateResult c.num_heads N c.M)
    (hup : Interface.update c N d wt wtd mem = some r)
    (hw : ∀ h i, 0 ≤ wt h i) (_hw1 : ∀ h, ∑ i, wt h i = 1)
    (hd : ∀ h i, 0 ≤ wtd h i) (_hd1 : ∀ h, ∑ i, wtd h i = 1) :
    ∀ h, |(∑ i, r.wt h i) - 1| ≤ 1e-6 := by
  obtain ⟨-, hr⟩ := (update_eq_some_iff c N d wt wtd mem r).mp hup
  subst hr
  intro h
  have hsum : ∑ i, (updateCore c N d wt wtd mem).wt h i = 1 := by
    unfold updateCore normalize
    dsimp only
    rw [← Finset.sum_div]
    exact div_self (ne_of_gt (sum_wtSharp_pos c N d wt wtd mem hw hd h))
  rw [hsum]
  norm_num

/-- Witness for C1: a one-head, one-slot configuration with uniform weights. -/
theorem update_row_sum_one_witness :
    |(∑ i, (updateCore ⟨1, false, 1, 1⟩ 1 (List.replicate 8 0)
        (fun _ _ => 1) (fun _ _ => 1) (fun _ _ => 0)).wt 0 i) - 1| ≤ 1e-6 :=
  update_row_sum_one ⟨1, false, 1, 1⟩ 1 (List.replicate 8 0)
    (fun _ _ => 1) (fun _ _ => 1) (fun _ _ => 0) _
    (by unfold Interface.update; rw [if_pos (by decide)])
    (fun _ _ => zero_le_one) (fun _ => by simp)
    (fun _ _ => zero_le_one) (fun _ => by simp) 0

/-- C10: whenever `Interface.update` accepts its arguments and the supplied
static and dynamic weights are non-negative, every component of the returned
static weights is strictly positive: `eps = 1e-12` is added to the shifted
weights before the power `γ`, and normalization divides by a positive row
sum. -/
theorem update_wt_strictly_pos (c : InterfaceCfg) (N : ℕ) [NeZero N]
    (d : List ℝ) (wt wtd : Fin c.num_heads → Fin N → ℝ)
    (mem : Fin N → Fin c.M → ℝ) (r : UpdateResult c.num_heads N c.M)
    (hup : Interface.update c N d wt wtd mem = some r)
    (hw : ∀ h i, 0 ≤ wt h i) (hd : ∀ h i, 0 ≤ wtd h i) :
    ∀ h i, 0 < r.wt h i := by
  obtain ⟨-, hr⟩ := (update_eq_some_iff c N d wt wtd mem r).mp hup
  subst hr
  intro h i
  unfold updateCore normalize
  dsimp only
  exact div_pos (wtSharp_pos c N d wt wtd mem hw hd h i)
    (sum_wtSharp_pos c N d wt wtd mem hw hd h)

/-- Witness for C10: a one-head, one-slot configuration with zero weights
(degenerate but non-negative inputs still give a strictly positive output). -/
theorem update_wt_strictly_pos_witness :
    0 < (updateCore ⟨1, false, 1, 1⟩ 1 (List.replicate 8 0)
      (fun _ _ => 0) (fun _ _ => 0) (fun _ _ => 0)).wt 0 0 :=
  update_wt_strictly_pos ⟨1, false, 1, 1⟩ 1 (List.replicate 8 0)
    (fun _ _ => 0) (fun _ _ => 0) (fun _ _ => 0) _
    (by unfold Interface.update; rw [if_pos (by decide)])
    (fun _ _ => le_refl 0) (fun _ _ => le_refl 0) 0 0

/-- C6: if the jump-mix coefficients (the softmax of the three jump logits
`j`) select 100% of the "home" component — coefficient vector non-negative,
summing to 1, with the home coordinate equal to 1, which is what a saturated
softmax produces — then the static weight produced by the jump mix equals the
fixed slot-0-concentrated vector `wt_address_0` exactly, independent of the
prior static and dynamic weights. -/
theorem jump_mix_saturated_home (H N : ℕ) (j : Fin H → Fin 3 → ℝ)
    (wtdyn wtst : Fin H → Fin N → ℝ) (h : Fin H)
    (hnn : ∀ t, 0 ≤ j h t) (hsum : ∑ t, j h t = 1) (hj2 : j h 2 = 1) :
    ∀ i, jumpMix j wtdyn wtst (wtAddress0 H N) h i = wtAddress0 H N h i := by
  have hs3 : j h 0 + j h 1 + j h 2 = 1 := by
    simpa [Fin.sum_univ_three] using hsum
  have h0 : j h 0 = 0 := by
    have := hnn 0
    have := hnn 1
    linarith
  have h1 : j h 1 = 0 := by
    have := hnn 0
    have := hnn 1
    linarith
  intro i
  simp [jumpMix, h0, h1, hj2]

/-- Witness for C6: coefficients `(0,0,1)`, arbitrary prior weights. -/
theorem jump_mix_saturated_home_witness :
    jumpMix (fun _ t => if t.1 = 2 then (1:ℝ) else 0)
      (fun _ _ => 5) (fun _ _ => 7) (wtAddress0 1 2) 0 0 = wtAddress0 1 2 0 0 :=
  jump_mix_saturated_home 1 2 (fun _ t => if t.1 = 2 then (1:ℝ) else 0)
    (fun _ _ => 5) (fun _ _ => 7) 0
    (fun t => by fin_cases t <;> norm_num)
    (by rw [Fin.sum_univ_three]; norm_num)
    (by norm_num) 0

/-- C5 counterexample: with one head, write weight 1, erase gate 1/2 (≠ 0)
but add vector 0, applying add before erase and erase before add produce the
same memory content — refuting "different final memory content … on a memory
bank with any initial content where the erase gate ≠ 0" as stated. -/
theorem erase_add_commute_counterexample :
    ((fun (_ : Fin 1) (_ : Fin 1) => (1:ℝ)/2) 0 0 ≠ 0) ∧
    @erase_weighted 1 1 1 (fun _ _ => 1/2) (fun _ _ => 1)
        (@add_weighted 1 1 1 (fun _ _ => 0) (fun _ _ => 1) (fun _ _ => 3))
      = @add_weighted 1 1 1 (fun _ _ => 0) (fun _ _ => 1)
        (@erase_weighted 1 1 1 (fun _ _ => 1/2) (fun _ _ => 1) (fun _ _ => 3)) := by
  constructor
  · norm_num
  · funext i t
    simp [erase_weighted, add_weighted]

/-- C5 (amended): within one `Interface.update` step the weighted erase is
applied strictly before the weighted add, and the two operations do not
commute — add-before-erase differs from erase-then-add — whenever at some
slot/cell position the summed weighted add contribution is nonzero and the
erase scaling factor differs from 1 (for a single head: nonzero write weight,
nonzero add component and nonzero erase gate at that position).  The nonzero
add contribution is necessary: with a zero add vector the two orders agree
even when the erase gate is nonzero. -/
theorem update_erase_before_add_noncommutative :
    (∀ (c : InterfaceCfg) (N : ℕ) [NeZero N] (d : List ℝ)
        (wt wtd : Fin c.num_heads → Fin N → ℝ) (mem : Fin N → Fin c.M → ℝ),
        (updateCore c N d wt wtd mem).mem
          = add_weighted (addVec c d) wt (erase_weighted (eraseGate c d) wt mem)) ∧
    (∀ (H N M : ℕ) (e a : Fin H → Fin M → ℝ) (w : Fin H → Fin N → ℝ)
        (m : Fin N → Fin M → ℝ) (i : Fin N) (t : Fin M),
        (∑ h, w h i * a h t) ≠ 0 → (∏ h, (1 - w h i * e h t)) ≠ 1 →
        erase_weighted e w (add_weighted a w m) i t
          ≠ add_weighted a w (erase_weighted e w m) i t) := by
  constructor
  · intro c N _ d wt wtd mem
    rfl
  · intro H N M e a w m i t hS hP heq
    simp only [erase_weighted, add_weighted] at heq
    have h0 : (∑ h, w h i * a h t) * ((∏ h, (1 - w h i * e h t)) - 1) = 0 := by
      linear_combination heq
    rcases mul_eq_zero.mp h0 with h | h
    · exact hS h
    · exact hP (by linarith)

/-- Witness for C5 (amended): one head, write weight 1, erase gate 1/2, add
component 1 — the two orders give different content. -/
theorem update_erase_before_add_noncommutative_witness :
    @erase_weighted 1 1 1 (fun _ _ => 1/2) (fun _ _ => 1)
        (@add_weighted 1 1 1 (fun _ _ => 1) (fun _ _ => 1) (fun _ _ => 3)) 0 0
      ≠ @add_weighted 1 1 1 (fun _ _ => 1) (fun _ _ => 1)
        (@erase_weighted 1 1 1 (fun _ _ => 1/2) (fun _ _ => 1) (fun _ _ => 3)) 0 0 :=
  update_erase_before_add_noncommutative.2 1 1 1
    (fun _ _ => 1/2) (fun _ _ => 1) (fun _ _ => 1) (fun _ _ => 3) 0 0
    (by simp) (by norm_num)

/-- C8: with a configured clipping threshold `T ≥ 0`, immediately after the
clip step every gradient component lies in `[-T, T]`, for any input gradient
magnitudes; with no configured threshold (`KeyError` branch) clipping is a
silent no-op. -/
theorem gradient_clipping_spec :
    (∀ (T : ℚ) (gs : List ℚ), 0 ≤ T →
      ∀ g ∈ applyGradientClipping (some T) gs, -T ≤ g ∧ g ≤ T) ∧
    (∀ gs : List ℚ, applyGradientClipping none gs = gs) := by
  constructor
  · intro T gs hT g hg
    simp only [applyGradientClipping, List.mem_map] at hg
    obtain ⟨g0, -, rfl⟩ := hg
    unfold clampGrad
    exact ⟨le_min (by linarith) (le_max_left _ _), min_le_left _ _⟩
  · intro gs
    rfl

/-- Witness for C8: threshold 1 applied to the gradient 5. -/
theorem gradient_clipping_spec_witness :
    -1 ≤ clampGrad 1 5 ∧ clampGrad 1 5 ≤ 1 :=
  gradient_clipping_spec.1 1 [5, -3] (by norm_num) (clampGrad 1 5)
    (List.mem_map_of_mem _ (by simp))

/-! ### Terminal-condition order of the trainer loop -/

/-- Terminal state announced by one episode's outcome (`none` = continue). -/
def outcomeTerminal : StepOutcome → Option TerminalState
  | .next _ => none
  | .stop t _ => some t

/-- Terminal state announced by one episode of the loop. -/
def stepTerminal (p : TrainerParams) (env : TrainerEnv) (st : TrainerState) :
    Option TerminalState :=
  outcomeTerminal (episodeStep p env st)

/-- The claim's reading of the terminal conditions (spec §4.3 step 9), for
comparison with the loop's behaviour: user-requested stop first, then
convergence — (curriculum complete ∨ completion not required) ∧ latest
validation loss below the stop threshold — then the episode limit. -/
def specTerminalOrder (p : TrainerParams) (env : TrainerEnv) (st : TrainerState) :
    Option TerminalState :=
  let doValid : Bool := st.episode % p.validation_interval == 0
  let latest : Option ℚ :=
    if doValid then some (env.validLoss st.episode) else st.latest_valid_loss
  if (trainVisualize p && env.plotQuit st.episode) ||
      (doValid && env.validQuit st.episode) then
    some .USER_STOPPED
  else if (env.curricDone st.episode || !p.must_finish_curriculum) &&
      lossBelow latest p.loss_stop then
    some .CONVERGED
  else if st.episode == p.max_episodes then
    some .EXHAUSTED
  else
    none

/-- C4: in every episode the loop announces exactly the terminal state given
by the precedence order user-stop → convergence → episode-limit (first
condition that fires wins), and a user stop at the training-visualization
point breaks immediately, with no validation and no save. -/
theorem terminal_conditions_precedence (p : TrainerParams) (env : TrainerEnv)
    (st : TrainerState) :
    stepTerminal p env st = specTerminalOrder p env st ∧
    ((trainVisualize p && env.plotQuit st.episode) = true →
      episodeStep p env st = .stop .USER_STOPPED st) := by
  constructor
  · unfold stepTerminal specTerminalOrder episodeStep
    cases hpv : (trainVisualize p && env.plotQuit st.episode) <;>
      cases hdv : (st.episode % p.validation_interval == 0) <;>
        cases husr : env.validQuit st.episode <;>
          simp [hpv, hdv, husr, outcomeTerminal] <;>
            split_ifs <;> rfl
  · intro hp
    unfold episodeStep
    rw [if_pos hp]

/-- Witness for C4: user pressing Quit at the visualization of episode 0
ends the loop as `USER_STOPPED` with the state untouched. -/
theorem terminal_conditions_precedence_witness :
    episodeStep ⟨10, 100, 0, false, none, some 0⟩
      ⟨fun _ => true, fun _ => 1, fun _ => false, fun _ => false⟩
      initTrainerState = .stop .USER_STOPPED initTrainerState :=
  (terminal_conditions_precedence ⟨10, 100, 0, false, none, some 0⟩
    ⟨fun _ => true, fun _ => 1, fun _ => false, fun _ => false⟩
    initTrainerState).2 rfl

/-! ### Exhaustion of the episode limit -/

/-- Behaviour of one episode when the user never stops and the latest
validation loss never drops below the stop threshold: before the limit the
loop continues with the episode counter incremented; at the limit it runs
one more validation, saves, and stops `EXHAUSTED`. -/
theorem episodeStep_no_stop (p : TrainerParams) (env : TrainerEnv)
    (st : TrainerState)
    (h1 : (trainVisualize p && env.plotQuit st.episode) = false)
    (h2 : env.validQuit st.episode = false)
    (h3 : ¬ env.validLoss st.episode < p.loss_stop)
    (hinv : lossBelow st.latest_valid_loss p.loss_stop = false) :
    (st.episode ≠ p.max_episodes →
      ∃ st', episodeStep p env st = .next st' ∧
        st'.episode = st.episode + 1 ∧
        st.save_count ≤ st'.save_count ∧
        st.valid_count ≤ st'.valid_count ∧
        lossBelow st'.latest_valid_loss p.loss_stop = false) ∧
    (st.episode = p.max_episodes →
      ∃ st', episodeStep p env st = .stop .EXHAUSTED st' ∧
        st'.episode = st.episode ∧
        st.save_count + 1 ≤ st'.save_count ∧
        st.valid_count + 1 ≤ st'.valid_count) := by
  obtain ⟨ep, lv, sc, vc⟩ := st
  simp only at h1 h2 h3 hinv ⊢
  cases hdv : (ep % p.validation_interval == 0)
  case false =>
    constructor
    · intro hne
      refine ⟨⟨ep + 1, lv, sc, vc⟩, ?_, rfl, le_refl _, le_refl _, hinv⟩
      unfold episodeStep
      simp [h1, h2, hdv, hinv, hne]
    · intro heq
      subst heq
      refine ⟨⟨p.max_episodes, lv, sc + 1, vc + 1⟩, ?_, rfl,
        le_refl _, le_refl _⟩
      unfold episodeStep
      simp [h1, h2, hdv, hinv]
  case true =>
    have hlb2 : lossBelow (some (env.validLoss ep)) p.loss_stop = false := by
      simp [lossBelow, h3]
    constructor
    · intro hne
      refine ⟨⟨ep + 1, some (env.validLoss ep), sc + 1, vc + 1⟩, ?_, rfl,
        Nat.le_succ _, Nat.le_succ _, hlb2⟩
      unfold episodeStep
      simp [h1, h2, hdv, hlb2, hne]
    · intro heq
      subst heq
      refine ⟨⟨p.max_episodes, some (env.validLoss p.max_episodes),
        sc + 1 + 1, vc + 1 + 1⟩, ?_, rfl, Nat.le_succ _, Nat.le_succ _⟩
      unfold episodeStep
      simp [h1, h2, hdv, hlb2]

/-- If the user never stops and validation losses never drop below the stop
threshold, the loop steps through the remaining episodes and stops
`EXHAUSTED` at the episode limit, having validated and saved at least once
more on the way. -/
theorem runLoop_exhausts (p : TrainerParams) (env : TrainerEnv)
    (h1 : ∀ e, (trainVisualize p && env.plotQuit e) = false)
    (h2 : ∀ e, env.validQuit e = false)
    (h3 : ∀ e, ¬ env.validLoss e < p.loss_stop) :
    ∀ (k : ℕ) (st : TrainerState),
      st.episode + k = p.max_episodes →
      lossBelow st.latest_valid_loss p.loss_stop = false →
      ∃ fin, runLoop p env (k + 1) st = (some .EXHAUSTED, fin) ∧
        fin.episode = p.max_episodes ∧
        st.save_count + 1 ≤ fin.save_count ∧
        st.valid_count + 1 ≤ fin.valid_count := by
  intro k
  induction k with
  | zero =>
    intro st hep hinv
    have heq : st.episode = p.max_episodes := by omega
    obtain ⟨st', hstep, he, hs, hv⟩ :=
      (episodeStep_no_stop p env st (h1 _) (h2 _) (h3 _) hinv).2 heq
    refine ⟨st', ?_, by omega, hs, hv⟩
    show (match episodeStep p env st with
          | .next s => runLoop p env 0 s
          | .stop t s => (some t, s)) = (some .EXHAUSTED, st')
    rw [hstep]
  | succ k ih =>
    intro st hep hinv
    have hne : st.episode ≠ p.max_episodes := by omega
    obtain ⟨st', hstep, he, hs, hv, hinv2⟩ :=
      (episodeStep_no_stop p env st (h1 _) (h2 _) (h3 _) hinv).1 hne
    obtain ⟨fin, hrun, hfe, hfs, hfv⟩ := ih st' (by omega) hinv2
    refine ⟨fin, ?_, hfe, by omega, by omega⟩
    show (match episodeStep p env st with
          | .next s => runLoop p env (k + 1) s
          | .stop t s => (some t, s)) = (some .EXHAUSTED, fin)
    rw [hstep]
    exact hrun

/-- C3: if the user never stops and convergence never occurs (the validation
loss never drops below the stop threshold), the loop reaches the configured
episode limit, runs one final mandatory validation there, saves, and ends in
the `EXHAUSTED` terminal state; checkpoint save is invoked at least twice —
once at the limit and once for the post-loop aggregate validation. -/
theorem trainer_exhausts_at_limit (p : TrainerParams) (env : TrainerEnv)
    (h1 : ∀ e, (trainVisualize p && env.plotQuit e) = false)
    (h2 : ∀ e, env.validQuit e = false)
    (h3 : ∀ e, ¬ env.validLoss e < p.loss_stop) :
    (trainerRun p env).1 = some .EXHAUSTED ∧
    (trainerRun p env).2.episode = p.max_episodes ∧
    2 ≤ (trainerRun p env).2.save_count ∧
    2 ≤ (trainerRun p env).2.valid_count := by
  obtain ⟨fin, hrun, hfe, hfs, hfv⟩ :=
    runLoop_exhausts p env h1 h2 h3 p.max_episodes initTrainerState
      (by simp [initTrainerState]) rfl
  simp only [initTrainerState] at hfs hfv
  refine ⟨?_, ?_, ?_, ?_⟩ <;> simp [trainerRun, hrun, hfe] <;> omega

/-- Witness for C3: limit 2, constant validation loss 1 against stop
threshold 0, no user interaction. -/
theorem trainer_exhausts_at_limit_witness :
    (trainerRun ⟨2, 100, 0, true, none, none⟩
        ⟨fun _ => false, fun _ => 1, fun _ => false, fun _ => false⟩).1
      = some .EXHAUSTED ∧
    2 ≤ (trainerRun ⟨2, 100, 0, true, none, none⟩
        ⟨fun _ => false, fun _ => 1, fun _ => false, fun _ => false⟩).2.save_count := by
  have h := trainer_exhausts_at_limit ⟨2, 100, 0, true, none, none⟩
    ⟨fun _ => false, fun _ => 1, fun _ => false, fun _ => false⟩
    (fun _ => rfl) (fun _ => rfl) (fun _ => by norm_num)
  exact ⟨h.1, h.2.2.1⟩

end MiPrometheus
